import Mathlib

/-!
# Verification development for the prime-visualizer pattern-detection core

This file gives a shallow embedding, in Lean 4, of the algorithmic core of the
prime-visualizer application (`src/components/PrimeVisualization.tsx` and the
angle-delta input handler of `src/components/ThreeGrid.tsx`), together with
theorems settling the specification claims about that core.

Modelling conventions:
* JavaScript numbers that only ever hold small integers or exact decimal
  fractions are modelled by `ℕ`, `ℤ` or `ℚ` (exact arithmetic);
  genuinely real-valued geometry (`Math.cos`, `Math.sin`, `Math.sqrt`, `π`)
  is modelled over `ℝ`.
* `Math.round` (round half toward positive infinity) is modelled by
  Mathlib's `round` (`round x = ⌊x + 1/2⌋`), which has the same
  half-up behaviour, also for negative arguments.
* `index % stepsPerRotation` in JavaScript: for a non-negative dividend the
  result coincides with `Int.emod`.  `stepsPerRotation` can be `0`
  (then the JS expression is `NaN`) or the whole division can be `Infinity`
  (when `angleDelta = 0`); both degenerate key shapes are represented
  explicitly in `armKey` below.
* The unbounded `while` loop of the prime generator is modelled with an
  explicit fuel parameter; the theorems quantify over all sufficiently large
  fuels, so no behaviour is hidden in the fuel choice.
-/

namespace PrimeVis

/-! ## Prime extender (`generatePrimesUpTo`, PrimeVisualization.tsx lines 8–31) -/

/-- Executable primality test by full trial division (used only to *specify*
what a "prime prefix" is and to state the loop invariant; the program's own
test is `isPrimeCand` below). -/
def natPrimeB (n : ℕ) : Bool :=
  decide (2 ≤ n) && (List.range n).all fun m => decide (m ≤ 1) || decide (¬ m ∣ n)

/-- The ascending list of all primes strictly below `c`. -/
def primesBelowList (c : ℕ) : List ℕ :=
  (List.range c).filter natPrimeB

/-- Embeds the inner `for (const p of primes)` loop of `generatePrimesUpTo`
(lines 15–23): trial division of `candidate` by the primes found so far,
breaking as soon as `p > Math.sqrt(candidate)` (i.e. `candidate < p * p`). -/
def isPrimeCand (candidate : ℕ) : List ℕ → Bool
  | [] => true
  | p :: ps =>
    if candidate < p * p then true
    else if candidate % p = 0 then false
    else isPrimeCand candidate ps

/-- Embeds the `while (primes.length < count)` loop of `generatePrimesUpTo`
(lines 14–28).  The JavaScript loop is unbounded; here one unit of fuel is
spent per candidate examined.  All theorems about it quantify over every
sufficiently large fuel. -/
def extendLoop (count : ℕ) : ℕ → List ℕ → ℕ → List ℕ
  | 0, primes, _ => primes
  | fuel + 1, primes, candidate =>
    if count ≤ primes.length then primes
    else if isPrimeCand candidate primes then
      extendLoop count fuel (primes ++ [candidate]) (candidate + 1)
    else
      extendLoop count fuel primes (candidate + 1)

/-- First candidate examined by the loop:
`primes.length > 0 ? primes[primes.length - 1] + 1 : 2` (line 12). -/
def startCandidate : List ℕ → ℕ
  | [] => 2
  | ps => ps.getLastD 0 + 1

/-- Embeds `generatePrimesUpTo(count, startingPrimes)` (lines 8–31); the
`fuel` argument models the unbounded `while` loop, see `extendLoop`.
Note the early return `startingPrimes.slice(0, count)` when
`startingPrimes.length >= count` — the function never fails. -/
def generatePrimesUpTo (fuel : ℕ) (count : ℕ) (startingPrimes : List ℕ) : List ℕ :=
  if count ≤ startingPrimes.length then startingPrimes.take count
  else extendLoop count fuel startingPrimes (startCandidate startingPrimes)

/-- `known` is an ascending prime prefix: it consists of exactly the primes
below the point where the generator would resume.  (Decidable, so concrete
instances can be checked by `decide`.) -/
def IsInitialPrimes (known : List ℕ) : Prop :=
  known = primesBelowList (startCandidate known)

instance : DecidablePred IsInitialPrimes := fun known =>
  inferInstanceAs (Decidable (known = _))

/-! ### Basic facts about `natPrimeB` and `primesBelowList` -/

theorem natPrimeB_iff (n : ℕ) : natPrimeB n = true ↔ n.Prime := by
  rw [Nat.prime_def_lt]
  simp only [natPrimeB, Bool.and_eq_true, decide_eq_true_eq, List.all_eq_true,
    Bool.or_eq_true, List.mem_range]
  constructor
  · rintro ⟨h2, hall⟩
    refine ⟨h2, fun m hm hdvd => ?_⟩
    rcases hall m hm with h1 | hnd
    · have hm0 : m ≠ 0 := by
        rintro rfl
        have := Nat.eq_zero_of_zero_dvd hdvd
        omega
      omega
    · exact absurd hdvd hnd
  · rintro ⟨h2, hall⟩
    refine ⟨h2, fun m hm => ?_⟩
    by_cases hdvd : m ∣ n
    · exact Or.inl (le_of_eq (hall m hm hdvd))
    · exact Or.inr hdvd

theorem mem_primesBelowList {p c : ℕ} :
    p ∈ primesBelowList c ↔ p.Prime ∧ p < c := by
  simp [primesBelowList, List.mem_filter, natPrimeB_iff, and_comm]

theorem primesBelowList_sorted (c : ℕ) :
    (primesBelowList c).Pairwise (· < ·) :=
  (List.pairwise_lt_range c).filter _

theorem primesBelowList_succ (c : ℕ) :
    primesBelowList (c + 1) =
      primesBelowList c ++ (if natPrimeB c then [c] else []) := by
  unfold primesBelowList
  rw [List.range_succ]
  rw [List.filter_append]
  simp only [List.filter_cons, List.filter_nil]

theorem primesBelowList_append (c c' : ℕ) (h : c ≤ c') :
    ∃ rest, primesBelowList c' = primesBelowList c ++ rest := by
  induction c' with
  | zero => exact ⟨[], by simp_all [Nat.le_zero.mp h, primesBelowList]⟩
  | succ k ih =>
    rcases Nat.lt_or_ge c (k + 1) with hlt | hge
    · obtain ⟨rest, hrest⟩ := ih (by omega)
      refine ⟨rest ++ (if natPrimeB k then [k] else []), ?_⟩
      rw [primesBelowList_succ, hrest, List.append_assoc]
    · have : c = k + 1 := by omega
      exact ⟨[], by simp [this]⟩

/-! ### Correctness of the trial-division test against a complete prime list -/

/-- If every listed divisor candidate is a prime below the (truly prime)
candidate, trial division accepts. -/
theorem isPrimeCand_of_prime {c : ℕ} (hc : c.Prime) :
    ∀ {ps : List ℕ}, (∀ p ∈ ps, p.Prime ∧ p < c) → isPrimeCand c ps = true := by
  intro ps
  induction ps with
  | nil => intro _; rfl
  | cons p t ih =>
    intro hmem
    obtain ⟨hp, hpc⟩ := hmem p (by simp)
    unfold isPrimeCand
    split
    · rfl
    · have hmod : ¬ c % p = 0 := by
        intro h0
        have hdvd : p ∣ c := Nat.dvd_of_mod_eq_zero h0
        rcases (Nat.Prime.eq_one_or_self_of_dvd hc p hdvd) with h1 | hs
        · exact absurd h1 (Nat.Prime.ne_one hp)
        · omega
      rw [if_neg hmod]
      exact ih fun q hq => hmem q (by simp [hq])

/-- If the ascending list contains a divisor `q` of `c` with `q * q ≤ c`,
trial division rejects (the `p > √candidate` break cannot fire before `q`
is reached). -/
theorem isPrimeCand_eq_false {c q : ℕ} (hq2 : 2 ≤ q) (hqq : q * q ≤ c)
    (hdvd : q ∣ c) :
    ∀ {ps : List ℕ}, ps.Pairwise (· < ·) → q ∈ ps → isPrimeCand c ps = false := by
  intro ps
  induction ps with
  | nil => intro _ h; cases h
  | cons p t ih =>
    intro hsort hmem
    rcases List.mem_cons.mp hmem with rfl | hqt
    · unfold isPrimeCand
      rw [if_neg (by omega)]
      rw [if_pos ((Nat.dvd_iff_mod_eq_zero ..).mp hdvd)]
    · have hpq : p < q := (List.pairwise_cons.mp hsort).1 q hqt
      have hppc : ¬ c < p * p := by
        have : p * p < q * q := Nat.mul_lt_mul_of_lt_of_le hpq (le_of_lt hpq) (by omega)
        omega
      unfold isPrimeCand
      rw [if_neg hppc]
      split
      · rfl
      · exact ih (List.pairwise_cons.mp hsort).2 hqt

/-- Against the complete list of primes below `c`, the program's trial
division test agrees exactly with true primality. -/
theorem isPrimeCand_primesBelow {c : ℕ} (h2 : 2 ≤ c) :
    isPrimeCand c (primesBelowList c) = true ↔ c.Prime := by
  constructor
  · intro htd
    by_contra hnp
    set q := Nat.minFac c with hqdef
    have hq : q.Prime := Nat.minFac_prime (by omega)
    have hqdvd : q ∣ c := Nat.minFac_dvd c
    have hcq : c / q ∣ c := Nat.div_dvd_of_dvd hqdvd
    have hcq1 : c / q ≠ 1 := by
      intro h1
      exact hnp (by rwa [Nat.eq_of_dvd_of_div_eq_one hqdvd h1] at hq)
    have hcq0 : 0 < c / q := Nat.div_pos (Nat.minFac_le (by omega)) (Nat.minFac_pos c)
    have hqle : q ≤ c / q := Nat.minFac_le_of_dvd (by omega) hcq
    have hqq : q * q ≤ c := by
      calc q * q ≤ q * (c / q) := Nat.mul_le_mul_left q hqle
        _ = c := Nat.mul_div_cancel' hqdvd
    have hqc : q < c := by
      have hq2' : 2 ≤ q := hq.two_le
      nlinarith
    have hqin : q ∈ primesBelowList c := mem_primesBelowList.mpr ⟨hq, hqc⟩
    have := isPrimeCand_eq_false hq.two_le hqq hqdvd (primesBelowList_sorted c) hqin
    rw [this] at htd
    cases htd
  · intro hc
    exact isPrimeCand_of_prime hc fun p hp =>
      ⟨(mem_primesBelowList.mp hp).1, (mem_primesBelowList.mp hp).2⟩

/-! ### The loop invariant and its preservation -/

/-- Invariant of `extendLoop`: the accumulated list is exactly the ascending
list of the true primes below the next candidate. -/
def LoopInv (primes : List ℕ) (candidate : ℕ) : Prop :=
  2 ≤ candidate ∧ primes = primesBelowList candidate

theorem extendLoop_succ (count fuel : ℕ) (primes : List ℕ) (candidate : ℕ) :
    extendLoop count (fuel + 1) primes candidate =
      if count ≤ primes.length then primes
      else if isPrimeCand candidate primes then
        extendLoop count fuel (primes ++ [candidate]) (candidate + 1)
      else extendLoop count fuel primes (candidate + 1) := rfl

theorem extendLoop_exit {count : ℕ} {primes : List ℕ} (h : count ≤ primes.length) :
    ∀ fuel candidate, extendLoop count fuel primes candidate = primes := by
  intro fuel candidate
  cases fuel with
  | zero => rfl
  | succ f => rw [extendLoop_succ, if_pos h]

/-- One loop iteration at a prime candidate appends it and keeps the
invariant. -/
theorem extendLoop_prime_step {count candidate : ℕ} {primes : List ℕ}
    (hinv : LoopInv primes candidate) (hlt : primes.length < count)
    (hcp : candidate.Prime) :
    (primesBelowList (candidate + 1)).length = primes.length + 1 ∧
    ∀ g, extendLoop count (1 + g) primes candidate =
      extendLoop count g (primesBelowList (candidate + 1)) (candidate + 1) := by
  obtain ⟨h2, heq⟩ := hinv
  have hB : natPrimeB candidate = true := (natPrimeB_iff candidate).mpr hcp
  have hsucc : primesBelowList (candidate + 1) = primes ++ [candidate] := by
    rw [primesBelowList_succ, if_pos hB, heq]
  have htd : isPrimeCand candidate primes = true := by
    rw [heq]
    exact (isPrimeCand_primesBelow h2).mpr hcp
  constructor
  · rw [hsucc]; simp
  · intro g
    have hstep : (1 : ℕ) + g = g + 1 := by omega
    rw [hstep, extendLoop_succ, if_neg (by omega), if_pos htd, hsucc]

/-- Running the loop from a state satisfying the invariant, with one more
prime still to find, reaches (with some fuel) a new invariant state with one
more prime collected; the extra fuel simulation form composes. -/
theorem extendLoop_reach {count : ℕ} :
    ∀ (d candidate : ℕ) (primes : List ℕ), LoopInv primes candidate →
      primes.length < count → (candidate + d).Prime →
      ∃ (f₁ c₁ : ℕ), candidate < c₁ ∧ LoopInv (primesBelowList c₁) c₁ ∧
        (primesBelowList c₁).length = primes.length + 1 ∧
        ∀ g, extendLoop count (f₁ + g) primes candidate =
          extendLoop count g (primesBelowList c₁) c₁ := by
  intro d
  induction d with
  | zero =>
    intro candidate primes hinv hlt hp
    rw [Nat.add_zero] at hp
    have h2 := hinv.1
    obtain ⟨hlen1, hsim⟩ := extendLoop_prime_step hinv hlt hp
    exact ⟨1, candidate + 1, by omega, ⟨by omega, rfl⟩, hlen1, hsim⟩
  | succ d ih =>
    intro candidate primes hinv hlt hp
    obtain ⟨h2, heq⟩ := hinv
    by_cases hcp : candidate.Prime
    · obtain ⟨hlen1, hsim⟩ := extendLoop_prime_step ⟨h2, heq⟩ hlt hcp
      exact ⟨1, candidate + 1, by omega, ⟨by omega, rfl⟩, hlen1, hsim⟩
    · have htd : isPrimeCand candidate primes = false := by
        rw [heq]
        rw [← Bool.not_eq_true]
        intro htrue
        exact hcp ((isPrimeCand_primesBelow h2).mp htrue)
      have heq' : primes = primesBelowList (candidate + 1) := by
        rw [primesBelowList_succ]
        have hB : natPrimeB candidate = false := by
          rw [← Bool.not_eq_true, natPrimeB_iff]
          exact hcp
        rw [hB]
        simpa using heq
      have hp' : (candidate + 1 + d).Prime := by
        have harr : candidate + 1 + d = candidate + (d + 1) := by omega
        rwa [harr]
      obtain ⟨f₁, c₁, hc₁, hinv₁, hlen₁, hsim⟩ :=
        ih (candidate + 1) primes ⟨by omega, heq'⟩ hlt hp'
      refine ⟨1 + f₁, c₁, by omega, hinv₁, hlen₁, ?_⟩
      intro g
      have hstep : (1 + f₁) + g = (f₁ + g) + 1 := by omega
      rw [hstep, extendLoop_succ, if_neg (by omega), if_neg (by simp [htd])]
      exact hsim g

/-- With enough fuel the loop completes: starting from an invariant state it
reaches, for every sufficiently large fuel, the ascending list of the first
`count` primes extending the start state. -/
theorem extendLoop_complete {count : ℕ} :
    ∀ (m : ℕ) (primes : List ℕ) (candidate : ℕ), LoopInv primes candidate →
      primes.length + m = count →
      ∃ (f₀ c' : ℕ), candidate ≤ c' ∧
        (primesBelowList c').length = count ∧
        ∀ g, extendLoop count (f₀ + g) primes candidate = primesBelowList c' := by
  intro m
  induction m with
  | zero =>
    intro primes candidate hinv hlen
    refine ⟨0, candidate, le_refl _, ?_, ?_⟩
    · rw [← hinv.2]; omega
    · intro g
      rw [← hinv.2]
      exact extendLoop_exit (by omega) _ _
  | succ m ih =>
    intro primes candidate hinv hlen
    obtain ⟨q, hq_ge, hq_prime⟩ := Nat.exists_infinite_primes candidate
    have hqd : candidate + (q - candidate) = q := by omega
    have hlt : primes.length < count := by omega
    obtain ⟨f₁, c₁, hc₁, hinv₁, hlen₁, hsim₁⟩ :=
      extendLoop_reach (q - candidate) candidate primes hinv hlt (by rwa [hqd])
    have hlen₂ : (primesBelowList c₁).length + m = count := by omega
    obtain ⟨f₂, c', hc', hlen', hsim₂⟩ := ih (primesBelowList c₁) c₁ hinv₁ hlen₂
    refine ⟨f₁ + f₂, c', by omega, hlen', ?_⟩
    intro g
    have harr : (f₁ + f₂) + g = f₁ + (f₂ + g) := by omega
    rw [harr, hsim₁ (f₂ + g), hsim₂ g]

/-! ### Fuel stability: once the loop has finished, extra fuel changes nothing -/

theorem extendLoop_stable {count : ℕ} :
    ∀ (fuel : ℕ) (primes : List ℕ) (candidate : ℕ),
      (extendLoop count fuel primes candidate).length = count →
      extendLoop count (fuel + 1) primes candidate =
        extendLoop count fuel primes candidate := by
  intro fuel
  induction fuel with
  | zero =>
    intro primes candidate hlen
    have : count ≤ primes.length := by
      show count ≤ (extendLoop count 0 primes candidate).length
      omega
    rw [extendLoop_exit this 1 candidate]
    rfl
  | succ f ih =>
    intro primes candidate hlen
    by_cases hex : count ≤ primes.length
    · rw [extendLoop_exit hex, extendLoop_exit hex]
    · by_cases htd : isPrimeCand candidate primes = true
      · have h1 : extendLoop count (f + 1 + 1) primes candidate =
            extendLoop count (f + 1) (primes ++ [candidate]) (candidate + 1) := by
          rw [extendLoop_succ, if_neg hex, if_pos htd]
        have h2 : extendLoop count (f + 1) primes candidate =
            extendLoop count f (primes ++ [candidate]) (candidate + 1) := by
          rw [extendLoop_succ, if_neg hex, if_pos htd]
        rw [h1, h2]
        exact ih _ _ (by rw [← h2]; exact hlen)
      · have h1 : extendLoop count (f + 1 + 1) primes candidate =
            extendLoop count (f + 1) primes (candidate + 1) := by
          rw [extendLoop_succ, if_neg hex, if_neg htd]
        have h2 : extendLoop count (f + 1) primes candidate =
            extendLoop count f primes (candidate + 1) := by
          rw [extendLoop_succ, if_neg hex, if_neg htd]
        rw [h1, h2]
        exact ih _ _ (by rw [← h2]; exact hlen)

theorem extendLoop_mono {count : ℕ} {fuel : ℕ} {primes : List ℕ} {candidate : ℕ}
    (hlen : (extendLoop count fuel primes candidate).length = count) :
    ∀ g, fuel ≤ g →
      extendLoop count g primes candidate = extendLoop count fuel primes candidate := by
  intro g
  induction g with
  | zero =>
    intro hg
    have : fuel = 0 := by omega
    rw [this]
  | succ k ih =>
    intro hg
    rcases Nat.lt_or_ge fuel (k + 1) with hlt | hge
    · have hk : extendLoop count k primes candidate = extendLoop count fuel primes candidate :=
        ih (by omega)
      rw [extendLoop_stable k primes candidate (by rw [hk]; exact hlen), hk]
    · have : fuel = k + 1 := by omega
      rw [this]

/-! ## Position mapping (PrimeVisualization.tsx lines 150–165 / 823–829) -/

/-- `angleDelta * Math.PI / 180` (line 141). -/
noncomputable def angleDeltaRad (angleDelta : ℚ) : ℝ :=
  (angleDelta : ℝ) * Real.pi / 180

/-- The record built for every prime at lines 157–165 (the same formulas are
used again in `createVisualization`, lines 823–829). -/
structure PrimePosition where
  index : ℕ
  prime : ℕ
  angle : ℝ
  radius : ℝ
  x : ℝ
  y : ℝ

instance : Inhabited PrimePosition := ⟨⟨0, 0, 0, 0, 0, 0⟩⟩

/-- The position mapper: for each index `i`,
`angle = i * angleDeltaRad`, `radius = 0.01 * prime`,
`x = radius * cos angle`, `y = radius * sin angle`. -/
noncomputable def mapPositions (primes : List ℕ) (angleDelta : ℚ) : List PrimePosition :=
  (List.range primes.length).map fun index =>
    let prime := primes.getD index 0
    let angle : ℝ := (index : ℝ) * angleDeltaRad angleDelta
    let radius : ℝ := 0.01 * (prime : ℝ)
    { index := index, prime := prime, angle := angle, radius := radius,
      x := radius * Real.cos angle, y := radius * Real.sin angle }

/-! ## Spiral-arm detection (`detectSpiralArms`, lines 134–202) -/

/-- `Math.round(360 / angleDelta)` (line 145), on exact rationals.
(For `angleDelta = 0` JavaScript produces `Infinity` instead; that case is
handled separately in `armKey`.) -/
def stepsPerRotationQ (angleDelta : ℚ) : ℤ :=
  round ((360 : ℚ) / angleDelta)

/-- The bucket key `index % stepsPerRotation` (line 152) as JavaScript
computes it:
* `angleDelta = 0`: `stepsPerRotation` is `Infinity` and `i % Infinity = i`,
  so every index is its own key;
* `stepsPerRotation = 0` (only when `|angleDelta| > 720`): `i % 0` is `NaN`,
  and a `Map` puts all `NaN` keys in one bucket — represented by `none`;
* otherwise `i % N`; for a non-negative dividend the JS remainder agrees
  with `Int.emod` for positive and negative `N` alike. -/
def armKey (angleDelta : ℚ) (i : ℕ) : Option ℤ :=
  if angleDelta = 0 then some i
  else if stepsPerRotationQ angleDelta = 0 then none
  else some ((i : ℤ) % stepsPerRotationQ angleDelta)

/-- The data of one `SpiralArmPoint` (lines 47–55) that the arm-detection
logic actually inspects: its sequence index and prime value.  The geometric
fields `x`, `y`, `z`, `angle`, `radius` are functions of `(index, prime)`
and `angleDelta` — see `mapPositions` — and are reconstructed where needed
(`predXY` below) instead of being stored. -/
structure SpiralArmPoint where
  index : ℕ
  prime : ℕ
deriving DecidableEq

instance : Inhabited SpiralArmPoint := ⟨⟨0, 0⟩⟩

/-- One entry of `arm.predictions` (lines 120–125).  The source record stores
`{x, y, z, predictedPrime}` with `predictedPrime = Math.round(...)`;
`predictedIndex` (line 110) and the exact unrounded accumulator value
`predictedPrimeQ` (the float variable `predictedPrime` of lines 105–115)
are kept because `x` and `y` are computed from them (lines 118–122);
see `predX`/`predY`. -/
structure Prediction where
  predictedIndex : ℤ
  predictedPrimeQ : ℚ
  predictedPrime : ℤ
deriving DecidableEq

instance : Inhabited Prediction := ⟨⟨0, 0, 0⟩⟩

/-- The prediction loop `for (step = 1; step <= numPredictions; step++)`
(lines 108–126), carrying the running `predictedPrime` and `currentGap`. -/
def buildPreds (lastIndex : ℕ) (stepsPerRotation : ℤ) (gapAcceleration : ℚ) :
    ℕ → ℕ → ℚ → ℚ → List Prediction
  | 0, _, _, _ => []
  | k + 1, step, predictedPrime, currentGap =>
    let g := currentGap + gapAcceleration
    let p := predictedPrime + g
    { predictedIndex := (lastIndex : ℤ) + (step : ℤ) * stepsPerRotation,
      predictedPrimeQ := p,
      predictedPrime := round p } ::
      buildPreds lastIndex stepsPerRotation gapAcceleration k (step + 1) p g

/-- Embeds `predictArmExtension(points, stepsPerRotation, angleDeltaRad,
numPredictions)` (lines 72–129).  The `angleDeltaRad` parameter only feeds
the derived `x`/`y` fields and is therefore not needed here; see `predX`. -/
def predictArmExtension (points : List SpiralArmPoint) (stepsPerRotation : ℤ)
    (numPredictions : ℕ) : List Prediction :=
  if points.length < 2 then []
  else
    let lastPoint := points.getLastD default
    let numPointsToUse := min 5 points.length
    let recentPoints := points.drop (points.length - numPointsToUse)
    let primeGaps : List ℚ :=
      List.zipWith (fun nxt cur => (nxt.prime : ℚ) - (cur.prime : ℚ))
        recentPoints.tail recentPoints
    let avgGap : ℚ :=
      if 0 < primeGaps.length then primeGaps.sum / (primeGaps.length : ℚ)
      else 100
    let gapAcceleration : ℚ :=
      if 1 < primeGaps.length then
        (primeGaps.getLastD 0 - primeGaps.headD 0) / ((primeGaps.length : ℚ) - 1)
      else 0
    buildPreds lastPoint.index stepsPerRotation gapAcceleration
      numPredictions 1 (lastPoint.prime : ℚ) avgGap

/-- `SpiralArm` (lines 57–61). -/
structure SpiralArm where
  armIndex : Option ℤ
  points : List SpiralArmPoint
  predictions : List Prediction
deriving DecidableEq

/-- Numeric value used by the final `arms.sort((a, b) => a.armIndex -
b.armIndex)` (line 199).  A `none` (`NaN`) key can only occur when it is the
single key, so its rank never influences an actual comparison. -/
def keyRank : Option ℤ → ℤ
  | none => 0
  | some k => k

/-- Comparator ordering of line 199. -/
def armLE (a b : SpiralArm) : Prop :=
  keyRank a.armIndex ≤ keyRank b.armIndex

instance : DecidableRel armLE := fun _ _ =>
  inferInstanceAs (Decidable (_ ≤ _))

instance : IsTotal SpiralArm armLE := ⟨fun _ _ => le_total _ _⟩

instance : IsTrans SpiralArm armLE := ⟨fun _ _ _ hab hbc => le_trans hab hbc⟩

/-- The bucket of key `k`: all points whose index has key `k`, in ascending
index order (the insertion order of the `forEach` at lines 150–171; the
defensive re-sort at line 181 is the identity on it). -/
def armBucket (primes : List ℕ) (angleDelta : ℚ) (k : Option ℤ) :
    List SpiralArmPoint :=
  ((List.range primes.length).filter fun i => decide (armKey angleDelta i = k)).map
    fun i => ⟨i, primes.getD i 0⟩

/-- Embeds `detectSpiralArms(primes, angleDelta, numPredictions)`
(lines 134–202).  The JS `Map` iterates its keys in first-insertion order;
since the arms are sorted by `armIndex` immediately afterwards (line 199),
collecting the distinct keys with `dedup` (which keeps one occurrence of
each key, order immaterial here) yields the same final list. -/
def detectSpiralArms (primes : List ℕ) (angleDelta : ℚ) (numPredictions : ℕ) :
    List SpiralArm :=
  if primes.length < 3 then []
  else
    let keys := ((List.range primes.length).map (armKey angleDelta)).dedup
    let arms := keys.filterMap fun k =>
      let points := armBucket primes angleDelta k
      if 2 ≤ points.length then
        some { armIndex := k, points := points,
               predictions := predictArmExtension points
                 (stepsPerRotationQ angleDelta) numPredictions }
      else none
    arms.insertionSort armLE

/-! ## Accuracy scoring (`calculateAccuracyWithExtended`, lines 206–272) -/

/-- `PredictionAccuracy` (lines 63–68). -/
structure PredictionAccuracy where
  totalPredictions : ℕ
  correctPredictions : ℕ
  averageDistance : ℝ
  accuracy : ℝ

/-- Predicted x-coordinate of a prediction (lines 111, 118, 121):
`0.01 * predictedPrime * cos(predictedIndex * angleDeltaRad)`, with the
*unrounded* accumulator value. -/
noncomputable def predX (angleDelta : ℚ) (pred : Prediction) : ℝ :=
  (0.01 * (pred.predictedPrimeQ : ℝ)) *
    Real.cos ((pred.predictedIndex : ℝ) * angleDeltaRad angleDelta)

/-- Predicted y-coordinate, see `predX`. -/
noncomputable def predY (angleDelta : ℚ) (pred : Prediction) : ℝ :=
  (0.01 * (pred.predictedPrimeQ : ℝ)) *
    Real.sin ((pred.predictedIndex : ℝ) * angleDeltaRad angleDelta)

/-- `distance` (lines 246–249). -/
noncomputable def predDistance (px py ax ay : ℝ) : ℝ :=
  Real.sqrt ((px - ax) ^ 2 + (py - ay) ^ 2)

/-- `avgRadius` (line 254): mean of the predicted point's distance from the
origin and the actual radius. -/
noncomputable def avgRadius (px py actualRadius : ℝ) : ℝ :=
  (Real.sqrt (px * px + py * py) + actualRadius) / 2

/-- `threshold` (line 255): `Math.max(0.3, avgRadius * 0.05)`. -/
noncomputable def predThreshold (px py actualRadius : ℝ) : ℝ :=
  max 0.3 (avgRadius px py actualRadius * 0.05)

/-- The classification test of line 256: a prediction is counted correct
iff `distance < threshold` (strict). -/
noncomputable def predictionCorrect (px py ax ay actualRadius : ℝ) : Prop :=
  predDistance px py ax ay < predThreshold px py actualRadius

open Classical in
/-- Scoring of one prediction (lines 232–259): recompute `predictedIndex`,
skip it unless it falls inside the extended prime list, otherwise accumulate
`(totalPredictions, correctPredictions, totalDistance)`. -/
noncomputable def scorePrediction (angleDelta : ℚ) (extendedPrimes : List ℕ)
    (stepsPerRotation : ℤ) (lastIndex : ℕ) (predIdx : ℕ) (pred : Prediction)
    (acc : ℕ × ℕ × ℝ) : ℕ × ℕ × ℝ :=
  let predictedIndex : ℤ := (lastIndex : ℤ) + ((predIdx : ℤ) + 1) * stepsPerRotation
  if predictedIndex < (extendedPrimes.length : ℤ) then
    let actualPrime := extendedPrimes.getD predictedIndex.toNat 0
    let actualAngle : ℝ := (predictedIndex : ℝ) * angleDeltaRad angleDelta
    let actualRadius : ℝ := 0.01 * (actualPrime : ℝ)
    let ax := actualRadius * Real.cos actualAngle
    let ay := actualRadius * Real.sin actualAngle
    let px := predX angleDelta pred
    let py := predY angleDelta pred
    ( acc.1 + 1,
      acc.2.1 + (if predictionCorrect px py ax ay actualRadius then 1 else 0),
      acc.2.2 + predDistance px py ax ay )
  else acc

/-- Scoring of one arm (lines 227–261): arms with no points are skipped,
otherwise every prediction is scored against the arm's last point. -/
noncomputable def scoreArm (angleDelta : ℚ) (extendedPrimes : List ℕ)
    (stepsPerRotation : ℤ) (arm : SpiralArm) (acc : ℕ × ℕ × ℝ) : ℕ × ℕ × ℝ :=
  if arm.points.length = 0 then acc
  else
    arm.predictions.enum.foldl
      (fun a ip => scorePrediction angleDelta extendedPrimes stepsPerRotation
        (arm.points.getLastD default).index ip.1 ip.2 a) acc

/-- Embeds `calculateAccuracyWithExtended(actualPrimes, extendedPrimes,
angleDelta, numPredictions)` (lines 206–272). -/
noncomputable def calculateAccuracyWithExtended (actualPrimes extendedPrimes : List ℕ)
    (angleDelta : ℚ) (numPredictions : ℕ) : PredictionAccuracy :=
  if actualPrimes.length < 10 then
    { totalPredictions := 0, correctPredictions := 0,
      averageDistance := 0, accuracy := 0 }
  else
    let stepsPerRotation := stepsPerRotationQ angleDelta
    let arms := detectSpiralArms actualPrimes angleDelta numPredictions
    let res := arms.foldl
      (fun acc arm => scoreArm angleDelta extendedPrimes stepsPerRotation arm acc)
      (0, 0, 0)
    { totalPredictions := res.1,
      correctPredictions := res.2.1,
      averageDistance := if 0 < res.1 then res.2.2 / (res.1 : ℝ) else 0,
      accuracy := if 0 < res.1 then ((res.2.1 : ℝ) / (res.1 : ℝ)) * 100 else 0 }

/-! ## Angle-delta input handling (`handleAngleDeltaChange`,
ThreeGrid.tsx lines 46–51) -/

/-- Embeds the UI input handler: `parseFloat` failure (`NaN`) is modelled by
`none`; a parsed value is accepted only when `0 < value < 180`, otherwise
the state keeps its current value. -/
def handleAngleDeltaChange (current : ℚ) (input : Option ℚ) : ℚ :=
  match input with
  | none => current
  | some value => if 0 < value ∧ value < 180 then value else current

/-! ## Auxiliary lemmas for the claim theorems -/

theorem buildPreds_length (lastIndex : ℕ) (N : ℤ) (accel : ℚ) :
    ∀ (k step : ℕ) (p g : ℚ), (buildPreds lastIndex N accel k step p g).length = k := by
  intro k
  induction k with
  | zero => intro step p g; rfl
  | succ k ih =>
    intro step p g
    simp only [buildPreds, List.length_cons]
    rw [ih]

theorem buildPreds_predictedIndex (lastIndex : ℕ) (N : ℤ) (accel : ℚ) :
    ∀ (k step : ℕ) (p g : ℚ) (j : ℕ), j < k →
      ((buildPreds lastIndex N accel k step p g).getD j default).predictedIndex
        = (lastIndex : ℤ) + ((step : ℤ) + (j : ℤ)) * N := by
  intro k
  induction k with
  | zero => intro step p g j hj; omega
  | succ k ih =>
    intro step p g j hj
    cases j with
    | zero => simp [buildPreds]
    | succ j =>
      have hj' : j < k := by omega
      simp only [buildPreds, List.getD_cons_succ]
      rw [ih (step + 1) _ _ j hj']
      push_cast
      ring

theorem armKey_of_spr {angleDelta : ℚ} (hΔ : angleDelta ≠ 0) {N : ℤ}
    (hN : stepsPerRotationQ angleDelta = N) (hN0 : N ≠ 0) (i : ℕ) :
    armKey angleDelta i = some ((i : ℤ) % N) := by
  rw [armKey, if_neg hΔ, hN, if_neg hN0]

theorem armKey_eq_none_iff (angleDelta : ℚ) (i : ℕ) :
    armKey angleDelta i = none ↔
      angleDelta ≠ 0 ∧ stepsPerRotationQ angleDelta = 0 := by
  unfold armKey
  split_ifs <;> simp_all

theorem getLastD_mem {l : List ℕ} (h : l ≠ []) (d : ℕ) : l.getLastD d ∈ l := by
  induction l with
  | nil => exact absurd rfl h
  | cons a t ih =>
    cases t with
    | nil => simp
    | cons b u => simpa using Or.inr (ih (by simp) )

theorem two_le_startCandidate {known : List ℕ} (h1 : IsInitialPrimes known) :
    2 ≤ startCandidate known := by
  cases known with
  | nil => simp [startCandidate]
  | cons a t =>
    show 2 ≤ (a :: t).getLastD 0 + 1
    have hmem : (a :: t).getLastD 0 ∈ a :: t := getLastD_mem (by simp) 0
    set g := (a :: t).getLastD 0 with hg
    rw [h1] at hmem
    have := (mem_primesBelowList.mp hmem).1.two_le
    omega

/-- Elements of a strictly sorted list of primes never divide a later
element. -/
theorem sorted_primes_no_dvd {r : List ℕ} (hall : ∀ p ∈ r, p.Prime)
    (hsort : r.Pairwise (· < ·)) :
    ∀ (j : ℕ) (hj : j < r.length), ∀ p ∈ r.take j, ¬ p ∣ r.get ⟨j, hj⟩ := by
  intro j hj p hp hdvd
  obtain ⟨i, hi, hpi⟩ := List.getElem_of_mem hp
  have hij : i < j := by
    have := hi
    simp only [List.length_take] at this
    omega
  have hir : i < r.length := by omega
  have hri : (r.take j)[i] = r[i] := List.getElem_take r
  have hplt : p < r.get ⟨j, hj⟩ := by
    have hpw := List.pairwise_iff_getElem.mp hsort i j hir hj hij
    rw [← hpi, hri]
    exact hpw
  have hpp : p.Prime := hall p (List.mem_of_mem_take hp)
  have hjp : (r.get ⟨j, hj⟩).Prime := hall _ (r.get_mem j hj)
  rcases (hjp.eq_one_or_self_of_dvd p hdvd) with h1 | hs
  · exact absurd h1 hpp.ne_one
  · omega

theorem mem_armBucket_index {primes : List ℕ} {angleDelta : ℚ} {k : Option ℤ}
    {i : ℕ} :
    (∃ p ∈ armBucket primes angleDelta k, p.index = i) ↔
      i < primes.length ∧ armKey angleDelta i = k := by
  simp only [armBucket, List.mem_map, List.mem_filter, List.mem_range,
    decide_eq_true_eq]
  constructor
  · rintro ⟨p, ⟨j, ⟨hj, hkey⟩, rfl⟩, rfl⟩
    exact ⟨hj, hkey⟩
  · rintro ⟨hi, hkey⟩
    exact ⟨⟨i, primes.getD i 0⟩, ⟨i, ⟨hi, hkey⟩, rfl⟩, rfl⟩

/-- Membership characterization for `detectSpiralArms` (input length ≥ 3):
the arms are exactly the full residue buckets with at least two points. -/
theorem mem_detectSpiralArms {primes : List ℕ} {angleDelta : ℚ}
    {numPredictions : ℕ} (hn : ¬ primes.length < 3) (a : SpiralArm) :
    a ∈ detectSpiralArms primes angleDelta numPredictions ↔
      (a.armIndex ∈ (List.range primes.length).map (armKey angleDelta)
       ∧ 2 ≤ (armBucket primes angleDelta a.armIndex).length
       ∧ a = ⟨a.armIndex, armBucket primes angleDelta a.armIndex,
              predictArmExtension (armBucket primes angleDelta a.armIndex)
                (stepsPerRotationQ angleDelta) numPredictions⟩) := by
  unfold detectSpiralArms
  rw [if_neg hn]
  rw [(List.perm_insertionSort armLE _).mem_iff]
  rw [List.mem_filterMap]
  constructor
  · rintro ⟨k, hk, hfk⟩
    by_cases h2 : 2 ≤ (armBucket primes angleDelta k).length
    · rw [if_pos h2] at hfk
      have ha := Option.some.inj hfk
      subst ha
      exact ⟨List.mem_dedup.mp hk, h2, rfl⟩
    · rw [if_neg h2] at hfk
      cases hfk
  · rintro ⟨hkmem, h2, ha⟩
    refine ⟨a.armIndex, List.mem_dedup.mpr hkmem, ?_⟩
    rw [if_pos h2, ← ha]

/-! ## Claim theorems -/

/-- **C2** (confirmed).  For every prime list and every `angleDelta > 0`,
the mapped `PrimePosition` at index `i` satisfies `radius = 0.01 * prime`
exactly, `angle = i * angleDelta * π / 180` (radians, accumulated without
reduction mod `2π`), `x = radius * cos angle` and `y = radius * sin angle`. -/
theorem mapPositions_formulas (primes : List ℕ) (angleDelta : ℚ)
    (hΔ : 0 < angleDelta) (i : ℕ) (hi : i < primes.length) :
    ((mapPositions primes angleDelta).getD i default).index = i
    ∧ ((mapPositions primes angleDelta).getD i default).prime = primes.getD i 0
    ∧ ((mapPositions primes angleDelta).getD i default).radius
        = 0.01 * (((mapPositions primes angleDelta).getD i default).prime : ℝ)
    ∧ ((mapPositions primes angleDelta).getD i default).angle
        = (i : ℝ) * ((angleDelta : ℝ) * Real.pi / 180)
    ∧ ((mapPositions primes angleDelta).getD i default).x
        = ((mapPositions primes angleDelta).getD i default).radius
            * Real.cos (((mapPositions primes angleDelta).getD i default).angle)
    ∧ ((mapPositions primes angleDelta).getD i default).y
        = ((mapPositions primes angleDelta).getD i default).radius
            * Real.sin (((mapPositions primes angleDelta).getD i default).angle) := by
  have hlen : (mapPositions primes angleDelta).length = primes.length := by
    simp [mapPositions]
  have hget : (mapPositions primes angleDelta).getD i default =
      { index := i, prime := primes.getD i 0,
        angle := (i : ℝ) * angleDeltaRad angleDelta,
        radius := 0.01 * ((primes.getD i 0 : ℕ) : ℝ),
        x := (0.01 * ((primes.getD i 0 : ℕ) : ℝ))
              * Real.cos ((i : ℝ) * angleDeltaRad angleDelta),
        y := (0.01 * ((primes.getD i 0 : ℕ) : ℝ))
              * Real.sin ((i : ℝ) * angleDeltaRad angleDelta) } := by
    rw [List.getD_eq_getElem _ _ (by omega)]
    simp [mapPositions]
  rw [hget]
  exact ⟨rfl, rfl, rfl, rfl, rfl, rfl⟩

/-- Witness for C2 at `primes = [2, 3, 5]`, `angleDelta = 36`, `i = 0`. -/
theorem mapPositions_formulas_witness :
    ((mapPositions [2, 3, 5] 36).getD 0 default).radius
      = 0.01 * (((mapPositions [2, 3, 5] 36).getD 0 default).prime : ℝ) :=
  (mapPositions_formulas [2, 3, 5] 36 (by norm_num) 0 (by norm_num)).2.2.1

/-- **C3** (confirmed).  An arm with exactly two points with primes
`p₀ < p₁` gets as its first prediction exactly
`lastPrime + avgGap = p₁ + (p₁ - p₀)`; the `gapAcceleration` term is `0`
because only one gap is measurable. -/
theorem predictArmExtension_two_points (P0 P1 : SpiralArmPoint) (N : ℤ) (m : ℕ)
    (hlt : P0.prime < P1.prime) (hm : 1 ≤ m) :
    ((predictArmExtension [P0, P1] N m).headD default).predictedPrime
      = (P1.prime : ℤ) + ((P1.prime : ℤ) - (P0.prime : ℤ)) := by
  obtain ⟨m', rfl⟩ : ∃ m', m = m' + 1 := ⟨m - 1, by omega⟩
  have hbody : predictArmExtension [P0, P1] N (m' + 1) =
      buildPreds P1.index N 0 (m' + 1) 1 (P1.prime : ℚ)
        ((P1.prime : ℚ) - (P0.prime : ℚ)) := by
    unfold predictArmExtension
    rw [if_neg (by simp)]
    simp [List.zipWith]
  rw [hbody]
  show (Prediction.predictedPrime _) = _
  simp only [buildPreds, List.headD_cons]
  have hcast : (P1.prime : ℚ) + (((P1.prime : ℚ) - (P0.prime : ℚ)) + 0)
      = (((P1.prime : ℤ) + ((P1.prime : ℤ) - (P0.prime : ℤ)) : ℤ) : ℚ) := by
    push_cast
    ring
  rw [hcast, round_intCast]

/-- Witness for C3 at the two-point arm `[(0, 2), (10, 31)]`. -/
theorem predictArmExtension_two_points_witness :
    ((predictArmExtension [SpiralArmPoint.mk 0 2, SpiralArmPoint.mk 10 31] 10 3).headD
        default).predictedPrime
      = ((SpiralArmPoint.mk 10 31).prime : ℤ)
        + (((SpiralArmPoint.mk 10 31).prime : ℤ) - ((SpiralArmPoint.mk 0 2).prime : ℤ)) :=
  predictArmExtension_two_points (SpiralArmPoint.mk 0 2) (SpiralArmPoint.mk 10 31)
    10 3 (by norm_num) (by norm_num)

/-- **C7** (confirmed).  For every arm and requested `predictionCount ≥ 1`,
the predictor returns the empty sequence when the arm has fewer than 2
points, and exactly `predictionCount` predictions otherwise; the prediction
at (1-based) step `s = j + 1` has
`predictedIndex = lastPoint.index + s * stepsPerRotation`. -/
theorem predictArmExtension_count (points : List SpiralArmPoint) (N : ℤ) (m : ℕ)
    (hm : 1 ≤ m) :
    (points.length < 2 → predictArmExtension points N m = [])
    ∧ (2 ≤ points.length →
        (predictArmExtension points N m).length = m
        ∧ ∀ j, j < m →
            ((predictArmExtension points N m).getD j default).predictedIndex
              = ((points.getLastD default).index : ℤ) + ((j : ℤ) + 1) * N) := by
  constructor
  · intro hsmall
    unfold predictArmExtension
    rw [if_pos hsmall]
  · intro hbig
    have hbody : predictArmExtension points N m =
        buildPreds (points.getLastD default).index N
          (if 1 < (List.zipWith (fun nxt cur => (nxt.prime : ℚ) - (cur.prime : ℚ))
              (points.drop (points.length - min 5 points.length)).tail
              (points.drop (points.length - min 5 points.length))).length then
            ((List.zipWith (fun nxt cur => (nxt.prime : ℚ) - (cur.prime : ℚ))
                (points.drop (points.length - min 5 points.length)).tail
                (points.drop (points.length - min 5 points.length))).getLastD 0
              - (List.zipWith (fun nxt cur => (nxt.prime : ℚ) - (cur.prime : ℚ))
                  (points.drop (points.length - min 5 points.length)).tail
                  (points.drop (points.length - min 5 points.length))).headD 0)
              / (((List.zipWith (fun nxt cur => (nxt.prime : ℚ) - (cur.prime : ℚ))
                  (points.drop (points.length - min 5 points.length)).tail
                  (points.drop (points.length - min 5 points.length))).length : ℚ) - 1)
          else 0)
          m 1 ((points.getLastD default).prime : ℚ)
          (if 0 < (List.zipWith (fun nxt cur => (nxt.prime : ℚ) - (cur.prime : ℚ))
              (points.drop (points.length - min 5 points.length)).tail
              (points.drop (points.length - min 5 points.length))).length then
            (List.zipWith (fun nxt cur => (nxt.prime : ℚ) - (cur.prime : ℚ))
                (points.drop (points.length - min 5 points.length)).tail
                (points.drop (points.length - min 5 points.length))).sum
              / ((List.zipWith (fun nxt cur => (nxt.prime : ℚ) - (cur.prime : ℚ))
                  (points.drop (points.length - min 5 points.length)).tail
                  (points.drop (points.length - min 5 points.length))).length : ℚ)
          else 100) := by
      unfold predictArmExtension
      rw [if_neg (by omega)]
    rw [hbody]
    constructor
    · exact buildPreds_length _ _ _ _ _ _ _
    · intro j hj
      rw [buildPreds_predictedIndex _ _ _ _ _ _ _ j hj]
      push_cast
      ring

/-- Witness for C7 at a concrete three-point arm and `m = 2`. -/
theorem predictArmExtension_count_witness :
    (2 ≤ ([SpiralArmPoint.mk 0 2, SpiralArmPoint.mk 10 31] : List SpiralArmPoint).length) ∧
    (predictArmExtension [SpiralArmPoint.mk 0 2, SpiralArmPoint.mk 10 31] 10 2).length = 2 := by
  refine ⟨by norm_num, ?_⟩
  exact ((predictArmExtension_count [SpiralArmPoint.mk 0 2, SpiralArmPoint.mk 10 31]
    10 2 (by norm_num)).2 (by norm_num)).1

/-- **C5** (confirmed).  With fewer than 10 input primes the accuracy scorer
returns the all-zero report, regardless of `angleDelta`, `predictionCount`
and the extended-primes argument. -/
theorem calculateAccuracy_small_input (actualPrimes extendedPrimes : List ℕ)
    (angleDelta : ℚ) (numPredictions : ℕ) (h : actualPrimes.length < 10) :
    calculateAccuracyWithExtended actualPrimes extendedPrimes angleDelta numPredictions
      = { totalPredictions := 0, correctPredictions := 0,
          averageDistance := 0, accuracy := 0 } := by
  unfold calculateAccuracyWithExtended
  rw [if_pos h]

/-- Witness for C5 at `actualPrimes = [2, 3]`. -/
theorem calculateAccuracy_small_input_witness :
    calculateAccuracyWithExtended [2, 3] [] 36 3
      = { totalPredictions := 0, correctPredictions := 0,
          averageDistance := 0, accuracy := 0 } :=
  calculateAccuracy_small_input [2, 3] [] 36 3 (by norm_num)

/-- **C6** (confirmed).  In the accuracy scorer a prediction is classified
correct iff its Euclidean distance to the ground-truth position is
*strictly* less than `max(0.3, meanRadius * 0.05)`; a distance exactly equal
to the threshold is NOT correct. -/
theorem predictionCorrect_iff (px py ax ay actualRadius : ℝ) :
    (predictionCorrect px py ax ay actualRadius ↔
      predDistance px py ax ay < max 0.3 (avgRadius px py actualRadius * 0.05))
    ∧ (predDistance px py ax ay = predThreshold px py actualRadius →
        ¬ predictionCorrect px py ax ay actualRadius) := by
  constructor
  · exact Iff.rfl
  · intro heq hc
    unfold predictionCorrect at hc
    rw [heq] at hc
    exact lt_irrefl _ hc

/-- Witness for C6: a prediction at distance exactly `0.3` (the threshold)
is not classified correct. -/
theorem predictionCorrect_iff_witness :
    ¬ predictionCorrect 0.3 0 0 0 0 := by
  have hsq : Real.sqrt ((0.3 : ℝ) ^ 2) = 0.3 := Real.sqrt_sq (by norm_num)
  have hL : predDistance 0.3 0 0 0 = 0.3 := by
    unfold predDistance
    rw [show ((0.3 : ℝ) - 0) ^ 2 + ((0 : ℝ) - 0) ^ 2 = (0.3 : ℝ) ^ 2 by norm_num]
    exact hsq
  have hR : predThreshold 0.3 0 0 = 0.3 := by
    unfold predThreshold avgRadius
    rw [show (0.3 : ℝ) * 0.3 + 0 * 0 = (0.3 : ℝ) ^ 2 by norm_num, hsq]
    rw [show ((0.3 : ℝ) + 0) / 2 * 0.05 = 0.0075 by norm_num]
    exact max_eq_left (by norm_num)
  exact (predictionCorrect_iff 0.3 0 0 0 0).2 (hL.trans hR.symm)

/-- Counterexample for **C9**: asked for fewer entries than already known
(`L = 2 < 3 = len(known)`), the prime extender does not fail — it returns
the truncated prefix `[2, 3]`. -/
theorem generatePrimesUpTo_truncates_counterexample :
    generatePrimesUpTo 0 2 [2, 3, 5] = [2, 3] := by decide

/-- **C9** (corrected).  The prime extender has no failure path: whenever the
requested total length is at most the known length it returns the first
`count` known entries unchanged (`startingPrimes.slice(0, count)`). -/
theorem generatePrimesUpTo_truncates (fuel count : ℕ) (startingPrimes : List ℕ)
    (h : count ≤ startingPrimes.length) :
    generatePrimesUpTo fuel count startingPrimes = startingPrimes.take count := by
  unfold generatePrimesUpTo
  rw [if_pos h]

/-- Witness for the amended C9 at `count = 1`, `known = [2, 3, 5]`. -/
theorem generatePrimesUpTo_truncates_witness :
    generatePrimesUpTo 5 1 [2, 3, 5] = [2, 3, 5].take 1 :=
  generatePrimesUpTo_truncates 5 1 [2, 3, 5] (by norm_num)

/-- **C10** (confirmed).  With fewer than 3 primes the arm detection returns
no arms — even in a situation (2 primes, `stepsPerRotation = 1`) where the
residue partition has a bucket with 2 points. -/
theorem detectSpiralArms_small_input :
    (∀ (primes : List ℕ) (angleDelta : ℚ) (numPredictions : ℕ),
        primes.length < 3 → detectSpiralArms primes angleDelta numPredictions = [])
    ∧ stepsPerRotationQ 360 = 1
    ∧ (armBucket [2, 3] 360 (some 0)).length = 2 := by
  have hspr : stepsPerRotationQ 360 = 1 := by
    unfold stepsPerRotationQ
    rw [round_eq]
    norm_num
  refine ⟨?_, hspr, ?_⟩
  · intro primes angleDelta numPredictions h
    unfold detectSpiralArms
    rw [if_pos h]
  · have hkey : ∀ i : ℕ, armKey 360 i = some ((i : ℤ) % 1) :=
      armKey_of_spr (by norm_num) hspr (by norm_num)
    simp only [armBucket, hkey]
    decide

/-- Witness for C10 applied at `primes = [2, 3]`, `angleDelta = 360`. -/
theorem detectSpiralArms_small_input_witness :
    detectSpiralArms [2, 3] 360 3 = [] :=
  detectSpiralArms_small_input.1 [2, 3] 360 3 (by norm_num)

/-- Counterexample for **C8**: for `angleDelta = -36 ≤ 0` the arm-detection
core does not reject — it computes a full result (one arm, from the residue
class of indices 0 and 10 modulo `stepsPerRotation = -10`). -/
theorem detectSpiralArms_negative_angleDelta_counterexample :
    (detectSpiralArms [2, 3, 5, 7, 11, 13, 17, 19, 23, 29, 31] (-36) 3).length = 1 := by
  have hspr : stepsPerRotationQ (-36) = -10 := by
    unfold stepsPerRotationQ
    rw [round_eq]
    norm_num
  have hkey : armKey (-36) = fun i : ℕ => some ((i : ℤ) % (-10)) :=
    funext (armKey_of_spr (by norm_num) hspr (by norm_num))
  simp only [detectSpiralArms, armBucket, hkey, hspr]
  decide

/-- **C8** (corrected).  Validation of `angleDelta` happens only at the UI
input boundary: `handleAngleDeltaChange` leaves the state unchanged for a
non-parsable input (`NaN`, modelled `none`) and for any value outside
`(0, 180)`; the core itself performs no validation (see the counterexample
above). -/
theorem handleAngleDeltaChange_rejects (current value : ℚ) :
    handleAngleDeltaChange current none = current
    ∧ (value ≤ 0 → handleAngleDeltaChange current (some value) = current)
    ∧ (180 ≤ value → handleAngleDeltaChange current (some value) = current) := by
  refine ⟨rfl, ?_, ?_⟩
  · intro h
    show (if 0 < value ∧ value < 180 then value else current) = current
    rw [if_neg (by rintro ⟨h1, -⟩; exact absurd h1 (not_lt.mpr h))]
  · intro h
    show (if 0 < value ∧ value < 180 then value else current) = current
    rw [if_neg (by rintro ⟨-, h2⟩; exact absurd h2 (not_lt.mpr h))]

/-- Witness for the amended C8 at `current = 36`, `value = -5`. -/
theorem handleAngleDeltaChange_rejects_witness :
    handleAngleDeltaChange 36 (some (-5)) = 36 :=
  (handleAngleDeltaChange_rejects 36 (-5)).2.1 (by norm_num)

/-- **C4** (confirmed).  Extending an ascending prime prefix `known` to any
total length `L ≥ len(known)` yields (for every sufficiently large fuel for
the unbounded `while` loop) an ascending sequence of length `L` whose first
`len(known)` entries are `known` unchanged and whose later entries pass
trial division by all earlier entries up to `√candidate`; in particular
`[2, 3, 5]` extended to length 8 is exactly `[2, 3, 5, 7, 11, 13, 17, 19]`. -/
theorem generatePrimesUpTo_spec (known : List ℕ) (L : ℕ)
    (h1 : IsInitialPrimes known) (h2 : known.length ≤ L) :
    (∃ f₀, ∀ f, f₀ ≤ f →
        (generatePrimesUpTo f L known).length = L
        ∧ (generatePrimesUpTo f L known).take known.length = known
        ∧ (generatePrimesUpTo f L known).Pairwise (· < ·)
        ∧ ∀ (j : ℕ) (hj : j < (generatePrimesUpTo f L known).length),
            known.length ≤ j →
            ∀ p ∈ (generatePrimesUpTo f L known).take j,
              p * p ≤ (generatePrimesUpTo f L known).get ⟨j, hj⟩ →
                ¬ p ∣ (generatePrimesUpTo f L known).get ⟨j, hj⟩)
    ∧ (∀ f, 14 ≤ f → generatePrimesUpTo f 8 [2, 3, 5] = [2, 3, 5, 7, 11, 13, 17, 19]) := by
  have hconc : ∀ f, 14 ≤ f →
      generatePrimesUpTo f 8 [2, 3, 5] = [2, 3, 5, 7, 11, 13, 17, 19] := by
    have hwrap : ∀ g, generatePrimesUpTo g 8 [2, 3, 5] = extendLoop 8 g [2, 3, 5] 6 :=
      fun g => rfl
    have h14 : extendLoop 8 14 [2, 3, 5] 6 = [2, 3, 5, 7, 11, 13, 17, 19] := by decide
    intro f hf
    have hlen14 : (extendLoop 8 14 [2, 3, 5] 6).length = 8 := by rw [h14]; rfl
    rw [hwrap f, extendLoop_mono hlen14 f hf, h14]
  refine ⟨?_, hconc⟩
  by_cases hkL : L ≤ known.length
  · have hkLeq : known.length = L := le_antisymm h2 hkL
    refine ⟨0, fun f _ => ?_⟩
    have hr : generatePrimesUpTo f L known = known := by
      unfold generatePrimesUpTo
      rw [if_pos hkL]
      exact List.take_of_length_le h2
    rw [hr]
    refine ⟨hkLeq, List.take_length known, h1 ▸ primesBelowList_sorted _, ?_⟩
    intro j hj hjk
    exact absurd hj (by omega)
  · have hlt : known.length < L := by omega
    have hc0 : 2 ≤ startCandidate known := two_le_startCandidate h1
    obtain ⟨f₀, c', hcc', hlen', hrun⟩ :=
      @extendLoop_complete L (L - known.length) known (startCandidate known)
        ⟨hc0, h1⟩ (by omega)
    refine ⟨f₀, fun f hf => ?_⟩
    have hwrap : generatePrimesUpTo f L known
        = extendLoop L f known (startCandidate known) := by
      unfold generatePrimesUpTo
      rw [if_neg (by omega)]
    have hr : generatePrimesUpTo f L known = primesBelowList c' := by
      rw [hwrap]
      have := hrun (f - f₀)
      rwa [show f₀ + (f - f₀) = f by omega] at this
    rw [hr]
    have hall : ∀ p ∈ primesBelowList c', p.Prime :=
      fun p hp => (mem_primesBelowList.mp hp).1
    have hsort := primesBelowList_sorted c'
    refine ⟨hlen', ?_, hsort, ?_⟩
    · obtain ⟨rest, hre⟩ := primesBelowList_append (startCandidate known) c' hcc'
      rw [hre, ← h1]
      exact List.take_left known rest
    · intro j hj hjk p hp hsq
      exact sorted_primes_no_dvd hall hsort j hj p hp

/-- Witness for C4: the theorem applied at `known = [2, 3, 5]`, `L = 8`
gives the concrete extension at fuel 14. -/
theorem generatePrimesUpTo_spec_witness :
    generatePrimesUpTo 14 8 [2, 3, 5] = [2, 3, 5, 7, 11, 13, 17, 19] :=
  (generatePrimesUpTo_spec [2, 3, 5] 8 (by decide) (by norm_num)).2 14 (by norm_num)

/-- Counterexample for **C1**: with only 2 primes and `angleDelta = 360`
(`stepsPerRotation = 1`) the residue bucket of `armIndex = 0` has 2 points,
yet `detectSpiralArms` returns no arms (the `primes.length < 3` guard at
line 139), so the returned arms are not "exactly the buckets with at least
2 points". -/
theorem detectSpiralArms_partition_counterexample :
    detectSpiralArms [2, 3] 360 3 = []
    ∧ 2 ≤ (armBucket [2, 3] 360 (some 0)).length := by
  constructor
  · rfl
  · have hspr : stepsPerRotationQ 360 = 1 := by
      unfold stepsPerRotationQ
      rw [round_eq]
      norm_num
    have hkeyf : armKey 360 = fun i : ℕ => some ((i : ℤ) % 1) :=
      funext (armKey_of_spr (by norm_num) hspr (by norm_num))
    simp only [armBucket, hkeyf]
    decide

/-- **C1** (corrected: the statement additionally requires at least 3 input
primes, because of the `primes.length < 3` guard at line 139 — see the
counterexample).  For ≥ 3 primes and `angleDelta > 0` the residue-class
detection partitions the indices: every bucket `armBucket` contains exactly
the indices `i < n` with `armKey i = k` (each index lies in exactly one
bucket); every returned arm is exactly its full bucket, with at least 2
points, in ascending index order; every bucket with ≥ 2 points is returned;
arms are uniquely determined by `armIndex` and sorted ascending by it.  In
particular for the 15 primes up to 47 and `angleDelta = 36`,
`stepsPerRotation = 10` and the arm with `armIndex = 0` contains exactly the
points `(0, 2)` and `(10, 31)`. -/
theorem detectSpiralArms_residue_partition (primes : List ℕ) (angleDelta : ℚ)
    (numPredictions : ℕ) (hn : 3 ≤ primes.length) (hΔ : 0 < angleDelta) :
    (∀ (k : Option ℤ) (i : ℕ),
        (∃ p ∈ armBucket primes angleDelta k, p.index = i) ↔
          (i < primes.length ∧ armKey angleDelta i = k))
    ∧ (∀ a ∈ detectSpiralArms primes angleDelta numPredictions,
          a.points = armBucket primes angleDelta a.armIndex
          ∧ 2 ≤ a.points.length
          ∧ a.points.Pairwise (fun p q => p.index < q.index))
    ∧ (∀ k : Option ℤ, 2 ≤ (armBucket primes angleDelta k).length →
          ∃ a ∈ detectSpiralArms primes angleDelta numPredictions, a.armIndex = k)
    ∧ (∀ a ∈ detectSpiralArms primes angleDelta numPredictions,
        ∀ b ∈ detectSpiralArms primes angleDelta numPredictions,
          a.armIndex = b.armIndex → a = b)
    ∧ (detectSpiralArms primes angleDelta numPredictions).Pairwise
        (fun a b => keyRank a.armIndex < keyRank b.armIndex)
    ∧ (stepsPerRotationQ 36 = 10
       ∧ ∃ a ∈ detectSpiralArms [2, 3, 5, 7, 11, 13, 17, 19, 23, 29, 31, 37, 41, 43, 47] 36 3,
           a.armIndex = some 0
           ∧ a.points.map (fun p => (p.index, p.prime)) = [(0, 2), (10, 31)]) := by
  have hn' : ¬ primes.length < 3 := by omega
  have hbucket_pairwise : ∀ k : Option ℤ,
      (armBucket primes angleDelta k).Pairwise (fun p q => p.index < q.index) := by
    intro k
    unfold armBucket
    exact List.pairwise_map.mpr ((List.pairwise_lt_range _).filter _)
  have harm : ∀ a ∈ detectSpiralArms primes angleDelta numPredictions,
      a.points = armBucket primes angleDelta a.armIndex
      ∧ 2 ≤ a.points.length
      ∧ a.points.Pairwise (fun p q => p.index < q.index) := by
    intro a ha
    obtain ⟨-, h2, hform⟩ := (mem_detectSpiralArms hn' a).mp ha
    have hpts : a.points = armBucket primes angleDelta a.armIndex := by
      rw [hform]
    refine ⟨hpts, ?_, ?_⟩
    · rw [hpts]; exact h2
    · rw [hpts]; exact hbucket_pairwise _
  have hcomplete : ∀ k : Option ℤ, 2 ≤ (armBucket primes angleDelta k).length →
      ∃ a ∈ detectSpiralArms primes angleDelta numPredictions, a.armIndex = k := by
    intro k h2
    have hpos : 0 < (armBucket primes angleDelta k).length := by omega
    obtain ⟨p, hp⟩ := List.exists_mem_of_length_pos hpos
    obtain ⟨hi, hkey⟩ := mem_armBucket_index.mp ⟨p, hp, rfl⟩
    have hkmem : k ∈ (List.range primes.length).map (armKey angleDelta) :=
      List.mem_map.mpr ⟨p.index, List.mem_range.mpr hi, hkey⟩
    refine ⟨⟨k, armBucket primes angleDelta k,
        predictArmExtension (armBucket primes angleDelta k)
          (stepsPerRotationQ angleDelta) numPredictions⟩, ?_, rfl⟩
    exact (mem_detectSpiralArms hn' _).mpr ⟨hkmem, h2, rfl⟩
  have hunique : ∀ a ∈ detectSpiralArms primes angleDelta numPredictions,
      ∀ b ∈ detectSpiralArms primes angleDelta numPredictions,
        a.armIndex = b.armIndex → a = b := by
    intro a ha b hb heq
    obtain ⟨-, -, hfa⟩ := (mem_detectSpiralArms hn' a).mp ha
    obtain ⟨-, -, hfb⟩ := (mem_detectSpiralArms hn' b).mp hb
    rw [hfa, hfb, heq]
  refine ⟨fun k i => mem_armBucket_index, harm, hcomplete, hunique, ?_, ?_⟩
  · -- sortedness by armIndex (strict, since arms have pairwise-distinct keys
    -- and a NaN key can only occur alone)
    have hsorted : (detectSpiralArms primes angleDelta numPredictions).Pairwise armLE := by
      unfold detectSpiralArms
      rw [if_neg hn']
      exact List.sorted_insertionSort armLE _
    have hnodup : (detectSpiralArms primes angleDelta numPredictions).Nodup := by
      unfold detectSpiralArms
      rw [if_neg hn']
      refine ((List.perm_insertionSort armLE _).nodup_iff).mpr ?_
      refine List.Nodup.filterMap ?_ (List.nodup_dedup _)
      intro k k' a hk hk'
      by_cases h2 : 2 ≤ (armBucket primes angleDelta k).length
      · rw [if_pos h2] at hk
        by_cases h2' : 2 ≤ (armBucket primes angleDelta k').length
        · rw [if_pos h2'] at hk'
          have e1 := Option.mem_some_iff.mp hk
          have e2 := Option.mem_some_iff.mp hk'
          have e3 : k = a.armIndex := by rw [← e1]
          have e4 : k' = a.armIndex := by rw [← e2]
          rw [e3, e4]
        · rw [if_neg h2'] at hk'
          cases hk'
      · rw [if_neg h2] at hk
        cases hk
    have hnone : ∀ x ∈ detectSpiralArms primes angleDelta numPredictions,
        x.armIndex = none →
        ∀ y ∈ detectSpiralArms primes angleDelta numPredictions,
          y.armIndex = none := by
      intro x hx hxn y hy
      obtain ⟨hxp, hx2, -⟩ := harm x hx
      obtain ⟨hyp, hy2, -⟩ := harm y hy
      have hposx : 0 < (armBucket primes angleDelta x.armIndex).length := by
        rw [← hxp]; omega
      have hposy : 0 < (armBucket primes angleDelta y.armIndex).length := by
        rw [← hyp]; omega
      obtain ⟨p, hp⟩ := List.exists_mem_of_length_pos hposx
      obtain ⟨-, hkeyx⟩ := mem_armBucket_index.mp ⟨p, hp, rfl⟩
      rw [hxn] at hkeyx
      obtain ⟨hΔ0, hspr0⟩ := (armKey_eq_none_iff angleDelta p.index).mp hkeyx
      obtain ⟨q, hq⟩ := List.exists_mem_of_length_pos hposy
      obtain ⟨-, hkeyy⟩ := mem_armBucket_index.mp ⟨q, hq, rfl⟩
      rw [← hkeyy]
      exact (armKey_eq_none_iff angleDelta q.index).mpr ⟨hΔ0, hspr0⟩
    have hne : (detectSpiralArms primes angleDelta numPredictions).Pairwise
        (· ≠ ·) := hnodup
    refine (hsorted.and hne).imp_of_mem ?_
    intro a b ha hb hab
    obtain ⟨hle, hneq⟩ := hab
    have hkne : a.armIndex ≠ b.armIndex := fun h => hneq (hunique a ha b hb h)
    have hxa : a.armIndex ≠ none := by
      intro hnonea
      exact hkne (hnonea.trans (hnone a ha hnonea b hb).symm)
    have hxb : b.armIndex ≠ none := by
      intro hnoneb
      exact hkne ((hnone b hb hnoneb a ha).trans hnoneb.symm)
    obtain ⟨v, hv⟩ := Option.ne_none_iff_exists'.mp hxa
    obtain ⟨w, hw⟩ := Option.ne_none_iff_exists'.mp hxb
    have hvw : keyRank (some v) ≤ keyRank (some w) := by
      rw [← hv, ← hw]
      exact hle
    have hvne : v ≠ w := fun h => hkne (by rw [hv, hw, h])
    simp only [keyRank] at hvw
    show keyRank a.armIndex < keyRank b.armIndex
    rw [hv, hw]
    show v < w
    omega
  · -- the concrete example
    have hspr : stepsPerRotationQ 36 = 10 := by
      unfold stepsPerRotationQ
      rw [round_eq]
      norm_num
    refine ⟨hspr, ?_⟩
    have hkeyf : armKey 36 = fun i : ℕ => some ((i : ℤ) % 10) :=
      funext (armKey_of_spr (by norm_num) hspr (by norm_num))
    simp only [detectSpiralArms, armBucket, hkeyf, hspr]
    decide

/-- Witness for C1: the theorem applied at the 15 primes up to 47 with
`angleDelta = 36` yields the concrete arm of `armIndex = 0`. -/
theorem detectSpiralArms_residue_partition_witness :
    stepsPerRotationQ 36 = 10
    ∧ ∃ a ∈ detectSpiralArms [2, 3, 5, 7, 11, 13, 17, 19, 23, 29, 31, 37, 41, 43, 47] 36 3,
        a.armIndex = some 0
        ∧ a.points.map (fun p => (p.index, p.prime)) = [(0, 2), (10, 31)] :=
  (detectSpiralArms_residue_partition
    [2, 3, 5, 7, 11, 13, 17, 19, 23, 29, 31, 37, 41, 43, 47] 36 3
    (by norm_num) (by norm_num)).2.2.2.2.2

end PrimeVis
